import Mathlib

/-!
Shallow embedding of the arbitrary-precision signed integer library
(`src/src/lib.rs`).  A `BigInt` stores its base-10 digits least-significant
first in `digits` (each `Vec<u8>` element modelled as a `Nat`) together with a
`sign`.  Every definition below is translated directly from the corresponding
Rust item; doc comments name the source function each definition embeds.
-/

/-- Embeds the Rust `enum Sign`. -/
inductive Sign where
  | Positive : Sign
  | Negative : Sign
  deriving DecidableEq

/-- Embeds the Rust `struct BigInt { digits: Vec<u8>, sign: Sign }`.
`digits` is least-significant-digit first; each `u8` element is modelled as a
`Nat` (the checked variants below account for the `u8` range). -/
structure BigInt where
  digits : List Nat
  sign : Sign
  deriving DecidableEq

/-- Embeds the pop-while-last-is-zero loop that appears verbatim both in
`BigInt::normalize` and at the end of `BigInt::sub_abs`: repeatedly removing
the last element while it is zero is the same as dropping the leading zeros of
the reversed list. -/
def stripZeros (l : List Nat) : List Nat :=
  (l.reverse.dropWhile (fun d => d == 0)).reverse

/-- Numeric value of a least-significant-first digit sequence. -/
def listVal : List Nat → Nat
  | [] => 0
  | d :: ds => d + 10 * listVal ds

/-- A digit sequence is normalized when its last (most significant) stored
element is not zero; the empty sequence is normalized. -/
def Normalized (l : List Nat) : Prop :=
  l.getLast? ≠ some 0

instance (l : List Nat) : Decidable (Normalized l) := by
  unfold Normalized; infer_instance

/-- All digits of a `BigInt` are in the `u8`-digit range `[0, 9]`. -/
def DigitsOk (a : BigInt) : Prop :=
  ∀ d ∈ a.digits, d ≤ 9

instance (a : BigInt) : Decidable (DigitsOk a) := by
  unfold DigitsOk; infer_instance

/-- Embeds `BigInt::new`. -/
def BigInt.new : BigInt :=
  { digits := [], sign := Sign.Positive }

/-- Embeds the digit loop of `Rust`'s find-first-difference in
`BigInt::cmp_abs` (the `find_map` over reversed zipped digits). -/
def firstDiff : List (Nat × Nat) → Ordering
  | [] => Ordering.eq
  | (x, y) :: rest =>
    match compare x y with
    | Ordering.eq => firstDiff rest
    | o => o

/-- Embeds `BigInt::cmp_abs`. -/
def BigInt.cmpAbs (a b : BigInt) : Ordering :=
  match compare a.digits.length b.digits.length with
  | Ordering.eq => firstDiff (a.digits.reverse.zip b.digits.reverse)
  | o => o

/-- Embeds the carry loop of the same-sign branch of `BigInt::add`
(`for (a, b) in res.digits.iter_mut().zip(b.digits ... chain(repeat(0)))`).
The first list drives the iteration (it is the resized `res.digits`); the
second list stands for `b.digits` chained with repeated zeros.  Returns the
rewritten digits together with the final carry. -/
def addLoop : List Nat → List Nat → Nat → List Nat × Nat
  | [], _, carry => ([], carry)
  | a :: as, bs, carry =>
    let s := a + bs.headD 0 + carry
    if s ≥ 10 then
      let r := addLoop as bs.tail 1
      ((s - 10) :: r.1, r.2)
    else
      let r := addLoop as bs.tail 0
      (s :: r.1, r.2)

/-- Embeds the same-sign branch of `BigInt::add`: clone `self`, resize the
digit vector to `max(len a, len b) + 1` filling with `0`, run the carry loop,
push a leftover carry, then `normalize` (= `stripZeros`).  The result keeps
`self`'s sign because `res` is a clone of `self`. -/
def BigInt.magAdd (a b : BigInt) : BigInt :=
  let padded := a.digits ++ List.replicate (max a.digits.length b.digits.length + 1 - a.digits.length) 0
  let r := addLoop padded b.digits 0
  let ds := if r.2 > 0 then r.1 ++ [r.2] else r.1
  { digits := stripZeros ds, sign := a.sign }

/-- Embeds the borrow loop of `BigInt::sub_abs`.  The first list drives the
iteration (it is the cloned `res.digits` of `self`); the second stands for
`other.digits` chained with repeated zeros. -/
def subLoop : List Nat → List Nat → Nat → List Nat
  | [], _, _ => []
  | a :: as, bs, borrow =>
    let b := bs.headD 0 + borrow
    if a < b then (a + 10 - b) :: subLoop as bs.tail 1
    else (a - b) :: subLoop as bs.tail 0

/-- Embeds `BigInt::sub_abs`: clone `self` (hence the result keeps `self`'s
sign), run the borrow loop, then pop trailing zero digits. -/
def BigInt.subAbs (a b : BigInt) : BigInt :=
  { digits := stripZeros (subLoop a.digits b.digits 0), sign := a.sign }

/-- Embeds `BigInt::sub`.  The two mixed-sign branches call `BigInt::add` on
arguments that are same-signed, so in the source they land in `add`'s
same-sign branch, i.e. in `magAdd`; the mutual call is inlined here to
`magAdd` (the theorems on delegation below re-establish that each mixed-sign
branch equals the corresponding `add` call of the source). -/
def BigInt.sub (a b : BigInt) : BigInt :=
  match a.sign, b.sign with
  | Sign.Positive, Sign.Positive =>
    match a.cmpAbs b with
    | Ordering.gt => a.subAbs b
    | Ordering.eq => BigInt.new
    | Ordering.lt => { b.subAbs a with sign := Sign.Negative }
  | Sign.Positive, Sign.Negative =>
    a.magAdd { digits := b.digits, sign := Sign.Positive }
  | Sign.Negative, Sign.Positive =>
    let r := a.magAdd { digits := b.digits, sign := Sign.Negative }
    { r with sign := Sign.Negative }
  | Sign.Negative, Sign.Negative =>
    match a.cmpAbs b with
    | Ordering.gt => { a.subAbs b with sign := Sign.Negative }
    | Ordering.eq => BigInt.new
    | Ordering.lt => b.subAbs a

/-- Embeds `BigInt::add`: the two same-sign branches are the carry-loop body
(`magAdd`), the two mixed-sign branches delegate to `BigInt::sub` exactly as
in the source. -/
def BigInt.add (a b : BigInt) : BigInt :=
  match a.sign, b.sign with
  | Sign.Positive, Sign.Positive => a.magAdd b
  | Sign.Negative, Sign.Negative => a.magAdd b
  | Sign.Positive, Sign.Negative => a.sub { digits := b.digits, sign := Sign.Positive }
  | Sign.Negative, Sign.Positive => b.sub { digits := a.digits, sign := Sign.Positive }

/-- Embeds Rust's `char::to_digit(10)`: `Some(c - '0')` exactly for the ASCII
characters `'0'..='9'` (codes 48..=57). -/
def digitVal? (c : Char) : Option Nat :=
  if 48 ≤ c.toNat ∧ c.toNat ≤ 57 then some (c.toNat - 48) else none

/-- Embeds the `collect::<Result<Vec<u8>, _>>()` over the mapped characters of
`BigInt::from`: succeeds with the digit values iff every character is a
decimal digit, otherwise fails with "Invalid digit". -/
def parseDigits : List Char → Except String (List Nat)
  | [] => Except.ok []
  | c :: cs =>
    match digitVal? c with
    | none => Except.error "Invalid digit"
    | some d => (parseDigits cs).map (fun ds => d :: ds)

/-- Embeds `BigInt::from`: empty input fails with "Invalid argument"; a
leading `'-'` sets the sign to `Negative` and is stripped; the remaining
characters are read in reverse order and each must be a decimal digit.  The
source's separate `is_empty` guard is merged into the first match arm. -/
def BigInt.fromStr (s : String) : Except String BigInt :=
  match s.data with
  | [] => Except.error "Invalid argument"
  | '-' :: rest =>
    (parseDigits rest.reverse).map (fun ds => { digits := ds, sign := Sign.Negative })
  | l =>
    (parseDigits l.reverse).map (fun ds => { digits := ds, sign := Sign.Positive })

/-- Embeds `BigInt::to_string`: join the decimal renderings of the reversed
digit vector; if that string is empty return "0", else prepend "-" exactly
when the sign is `Negative`. -/
def BigInt.toString (a : BigInt) : String :=
  let signStr :=
    match a.sign with
    | Sign.Positive => ""
    | Sign.Negative => "-"
  let digitsStr := String.join (a.digits.reverse.map (fun d => Nat.repr d))
  if digitsStr = "" then "0" else signStr ++ digitsStr

/-- The digit-bearing characters of an input: everything after an optional
leading `'-'` (mirrors `s[digits_start..]` in `BigInt::from`). -/
def digitPart : List Char → List Char
  | '-' :: r => r
  | l => l

/-- A rendered string has no leading zero digit: it is the lone "0", or the
first character after the optional sign is not `'0'`. -/
def NoLeadingZero (t : String) : Prop :=
  t = "0" ∨ (digitPart t.data).head? ≠ some '0'

/-- A nonempty all-digit character run with no leading `'0'` except the lone
"0" (the digit part of a valid decimal literal, from the spec's round-trip
statement). -/
def ValidDigitStr (l : List Char) : Prop :=
  l ≠ [] ∧ (∀ c ∈ l, 48 ≤ c.toNat ∧ c.toNat ≤ 57) ∧ (l.head? = some '0' → l = ['0'])

instance (l : List Char) : Decidable (ValidDigitStr l) := by
  unfold ValidDigitStr
  infer_instance

/-- A valid decimal string: an optional leading `'-'` followed by a valid
digit run (from the spec's round-trip statement). -/
def ValidDec (s : String) : Prop :=
  ValidDigitStr s.data ∨ ∃ r, s.data = '-' :: r ∧ ValidDigitStr r

/-- Checked (u8-faithful) variant of `addLoop`: returns `none` whenever a
`u8` operation of the source loop would overflow (`b + carry` above 255, or
`*a += b + carry` above 255); `*a -= 10` is only executed when the sum is at
least 10, so it cannot underflow. -/
def addLoopChk : List Nat → List Nat → Nat → Option (List Nat × Nat)
  | [], _, carry => some ([], carry)
  | a :: as, bs, carry =>
    let bc := bs.headD 0 + carry
    if bc > 255 then none
    else if a + bc > 255 then none
    else
      let s := a + bs.headD 0 + carry
      if s ≥ 10 then
        (addLoopChk as bs.tail 1).map (fun r => ((s - 10) :: r.1, r.2))
      else
        (addLoopChk as bs.tail 0).map (fun r => (s :: r.1, r.2))

/-- Checked variant of `magAdd` built on `addLoopChk`. -/
def BigInt.magAddChk (a b : BigInt) : Option BigInt :=
  let padded := a.digits ++ List.replicate (max a.digits.length b.digits.length + 1 - a.digits.length) 0
  (addLoopChk padded b.digits 0).map (fun r =>
    let ds := if r.2 > 0 then r.1 ++ [r.2] else r.1
    { digits := stripZeros ds, sign := a.sign })

/-- Checked (u8-faithful) variant of `subLoop`: returns `none` whenever a
`u8` operation of the source loop would leave the `u8` range (`b + borrow`
above 255, `*a += 10` above 255, or `*a -= b` below 0). -/
def subLoopChk : List Nat → List Nat → Nat → Option (List Nat)
  | [], _, _ => some []
  | a :: as, bs, borrow =>
    let b := bs.headD 0 + borrow
    if b > 255 then none
    else if a < b then
      if a + 10 > 255 then none
      else if a + 10 < b then none
      else (subLoopChk as bs.tail 1).map (fun r => (a + 10 - b) :: r)
    else (subLoopChk as bs.tail 0).map (fun r => (a - b) :: r)

/-- Checked variant of `subAbs` built on `subLoopChk`. -/
def BigInt.subAbsChk (a b : BigInt) : Option BigInt :=
  (subLoopChk a.digits b.digits 0).map (fun ds =>
    { digits := stripZeros ds, sign := a.sign })

/-- Checked variant of `sub`, with the same dispatch as `BigInt.sub`. -/
def BigInt.subChk (a b : BigInt) : Option BigInt :=
  match a.sign, b.sign with
  | Sign.Positive, Sign.Positive =>
    match a.cmpAbs b with
    | Ordering.gt => a.subAbsChk b
    | Ordering.eq => some BigInt.new
    | Ordering.lt => (b.subAbsChk a).map (fun r => { r with sign := Sign.Negative })
  | Sign.Positive, Sign.Negative =>
    a.magAddChk { digits := b.digits, sign := Sign.Positive }
  | Sign.Negative, Sign.Positive =>
    (a.magAddChk { digits := b.digits, sign := Sign.Negative }).map
      (fun r => { r with sign := Sign.Negative })
  | Sign.Negative, Sign.Negative =>
    match a.cmpAbs b with
    | Ordering.gt => (a.subAbsChk b).map (fun r => { r with sign := Sign.Negative })
    | Ordering.eq => some BigInt.new
    | Ordering.lt => b.subAbsChk a

/-- Checked variant of `add`, with the same dispatch as `BigInt.add`. -/
def BigInt.addChk (a b : BigInt) : Option BigInt :=
  match a.sign, b.sign with
  | Sign.Positive, Sign.Positive => a.magAddChk b
  | Sign.Negative, Sign.Negative => a.magAddChk b
  | Sign.Positive, Sign.Negative => a.subChk { digits := b.digits, sign := Sign.Positive }
  | Sign.Negative, Sign.Positive => b.subChk { digits := a.digits, sign := Sign.Positive }





/-!
Helper lemmas about `stripZeros` and `listVal`.
-/

theorem head?_dropWhile_zero (l : List Nat) :
    (l.dropWhile (fun d => d == 0)).head? ≠ some 0 := by
  induction l with
  | nil => simp [List.dropWhile]
  | cons c t ih =>
    rw [List.dropWhile_cons]
    split
    · exact ih
    · rename_i h
      simp only [List.head?_cons, ne_eq, Option.some.injEq]
      intro hc
      exact h (by simp [hc])

theorem stripZeros_normalized (l : List Nat) : Normalized (stripZeros l) := by
  unfold Normalized stripZeros
  rw [List.getLast?_reverse]
  exact head?_dropWhile_zero l.reverse

theorem listVal_append (xs ys : List Nat) :
    listVal (xs ++ ys) = listVal xs + 10 ^ xs.length * listVal ys := by
  induction xs with
  | nil => simp [listVal]
  | cons d t ih =>
    show d + 10 * listVal (t ++ ys) =
      d + 10 * listVal t + 10 ^ (t.length + 1) * listVal ys
    rw [ih, pow_succ]
    ring

theorem listVal_reverse_dropWhile (m : List Nat) :
    listVal ((m.dropWhile (fun d => d == 0)).reverse) = listVal m.reverse := by
  induction m with
  | nil => simp
  | cons c t ih =>
    rw [List.dropWhile_cons]
    split
    · rename_i h
      have hc : c = 0 := by simpa using h
      rw [ih, List.reverse_cons, listVal_append, hc]
      simp [listVal]
    · rfl

theorem stripZeros_listVal (l : List Nat) : listVal (stripZeros l) = listVal l := by
  have h := listVal_reverse_dropWhile l.reverse
  rw [List.reverse_reverse] at h
  exact h

theorem mem_stripZeros {d : Nat} {l : List Nat} (h : d ∈ stripZeros l) : d ∈ l := by
  unfold stripZeros at h
  have h1 : d ∈ l.reverse.dropWhile (fun d => d == 0) := List.mem_reverse.mp h
  have h2 : d ∈ l.reverse := List.Sublist.mem h1 (List.dropWhile_sublist _)
  exact List.mem_reverse.mp h2

theorem listVal_lt (l : List Nat) (h : ∀ d ∈ l, d ≤ 9) : listVal l < 10 ^ l.length := by
  induction l with
  | nil => simp [listVal]
  | cons d t ih =>
    have hd : d ≤ 9 := h d (List.mem_cons_self d t)
    have ht := ih (fun x hx => h x (List.mem_cons_of_mem d hx))
    simp only [listVal, List.length_cons, pow_succ]
    omega

theorem le_getLast_listVal (l : List Nat) (d : Nat) (h : l.getLast? = some d) :
    10 ^ (l.length - 1) * d ≤ listVal l := by
  obtain ⟨ys, rfl⟩ := List.getLast?_eq_some_iff.mp h
  rw [listVal_append]
  simp only [listVal, List.length_append, List.length_cons, List.length_nil,
    Nat.mul_zero, Nat.add_zero, Nat.zero_add, Nat.add_sub_cancel]
  exact Nat.le_add_left _ _

theorem listVal_pos_of_normalized (l : List Nat) (hn : Normalized l) (hne : l ≠ []) :
    0 < listVal l := by
  cases hl : l.getLast? with
  | none => exact absurd (List.getLast?_eq_none_iff.mp hl) hne
  | some d =>
    have hd : d ≠ 0 := by
      intro h0
      exact hn (h0 ▸ hl)
    have h1 : 10 ^ (l.length - 1) * d ≤ listVal l := le_getLast_listVal l d hl
    have h2 : 0 < 10 ^ (l.length - 1) * d :=
      Nat.mul_pos (Nat.pos_pow_of_pos _ (by norm_num)) (Nat.pos_of_ne_zero hd)
    omega

/-!
Helper lemmas about the carry loop and the borrow loop.
-/

theorem headD_le_of_mem (bs : List Nat) (h : ∀ d ∈ bs, d ≤ 9) : bs.headD 0 ≤ 9 := by
  cases bs with
  | nil => simp
  | cons b t => exact h b (List.mem_cons_self b t)

theorem tail_bound (bs : List Nat) (h : ∀ d ∈ bs, d ≤ 9) : ∀ d ∈ bs.tail, d ≤ 9 :=
  fun d hd => h d (List.mem_of_mem_tail hd)

theorem listVal_headD_tail (bs : List Nat) :
    listVal bs = bs.headD 0 + 10 * listVal bs.tail := by
  cases bs <;> simp [listVal]

theorem addLoop_bounds (as : List Nat) : ∀ (bs : List Nat) (c : Nat),
    (∀ d ∈ as, d ≤ 9) → (∀ d ∈ bs, d ≤ 9) → c ≤ 1 →
    (∀ d ∈ (addLoop as bs c).1, d ≤ 9) ∧ (addLoop as bs c).2 ≤ 1 := by
  induction as with
  | nil =>
    intro bs c _ _ hc
    simpa [addLoop] using hc
  | cons a t ih =>
    intro bs c ha hb hc
    have ha9 : a ≤ 9 := ha a (List.mem_cons_self a t)
    have hat : ∀ d ∈ t, d ≤ 9 := fun d hd => ha d (List.mem_cons_of_mem a hd)
    have hb9 : bs.headD 0 ≤ 9 := headD_le_of_mem bs hb
    have hbt : ∀ d ∈ bs.tail, d ≤ 9 := tail_bound bs hb
    simp only [addLoop]
    split
    · rename_i hs
      obtain ⟨h1, h2⟩ := ih bs.tail 1 hat hbt (le_refl 1)
      refine ⟨?_, h2⟩
      intro d hd
      rcases List.mem_cons.mp hd with h | h
      · omega
      · exact h1 d h
    · rename_i hs
      obtain ⟨h1, h2⟩ := ih bs.tail 0 hat hbt (by omega)
      refine ⟨?_, h2⟩
      intro d hd
      rcases List.mem_cons.mp hd with h | h
      · omega
      · exact h1 d h

theorem subLoop_bounds (as : List Nat) : ∀ (bs : List Nat) (br : Nat),
    (∀ d ∈ as, d ≤ 9) → (∀ d ∈ bs, d ≤ 9) → br ≤ 1 →
    ∀ d ∈ subLoop as bs br, d ≤ 9 := by
  induction as with
  | nil => intro bs br _ _ _ d hd; simp [subLoop] at hd
  | cons a t ih =>
    intro bs br ha hb hbr
    have ha9 : a ≤ 9 := ha a (List.mem_cons_self a t)
    have hat : ∀ d ∈ t, d ≤ 9 := fun d hd => ha d (List.mem_cons_of_mem a hd)
    have hb9 : bs.headD 0 ≤ 9 := headD_le_of_mem bs hb
    have hbt : ∀ d ∈ bs.tail, d ≤ 9 := tail_bound bs hb
    simp only [subLoop]
    split
    · rename_i hlt
      intro d hd
      rcases List.mem_cons.mp hd with h | h
      · omega
      · exact ih bs.tail 1 hat hbt (le_refl 1) d h
    · rename_i hge
      intro d hd
      rcases List.mem_cons.mp hd with h | h
      · omega
      · exact ih bs.tail 0 hat hbt (by omega) d h

theorem subLoop_listVal (as : List Nat) : ∀ (bs : List Nat) (br : Nat),
    (∀ d ∈ as, d ≤ 9) → (∀ d ∈ bs, d ≤ 9) → br ≤ 1 →
    bs.length ≤ as.length →
    listVal bs + br ≤ listVal as →
    listVal (subLoop as bs br) = listVal as - listVal bs - br := by
  induction as with
  | nil =>
    intro bs br _ _ _ hlen hle
    have hbs : bs = [] := List.length_eq_zero.mp (Nat.le_zero.mp hlen)
    subst hbs
    simp only [subLoop, listVal] at *
    omega
  | cons a t ih =>
    intro bs br ha hb hbr hlen hle
    have ha9 : a ≤ 9 := ha a (List.mem_cons_self a t)
    have hat : ∀ d ∈ t, d ≤ 9 := fun d hd => ha d (List.mem_cons_of_mem a hd)
    have hb9 : bs.headD 0 ≤ 9 := headD_le_of_mem bs hb
    have hbt : ∀ d ∈ bs.tail, d ≤ 9 := tail_bound bs hb
    have hbv : listVal bs = bs.headD 0 + 10 * listVal bs.tail := listVal_headD_tail bs
    have hlen' : bs.tail.length ≤ t.length := by
      have h1 := List.length_tail bs
      simp only [List.length_cons] at hlen
      omega
    have hva : listVal (a :: t) = a + 10 * listVal t := rfl
    simp only [subLoop]
    split
    · rename_i hlt
      have hrec : listVal bs.tail + 1 ≤ listVal t := by omega
      have hv : listVal ((a + 10 - (bs.headD 0 + br)) :: subLoop t bs.tail 1) =
          (a + 10 - (bs.headD 0 + br)) + 10 * listVal (subLoop t bs.tail 1) := rfl
      rw [hv, ih bs.tail 1 hat hbt (le_refl 1) hlen' hrec]
      omega
    · rename_i hge
      have hge' : ¬ a < bs.headD 0 + br := hge
      have hrec : listVal bs.tail + 0 ≤ listVal t := by omega
      have hv : listVal ((a - (bs.headD 0 + br)) :: subLoop t bs.tail 0) =
          (a - (bs.headD 0 + br)) + 10 * listVal (subLoop t bs.tail 0) := rfl
      rw [hv, ih bs.tail 0 hat hbt (by omega) hlen' hrec]
      omega

/-!
Normalization and digit-range facts about the operation results.
-/

theorem magAdd_normalized (a b : BigInt) : Normalized (a.magAdd b).digits :=
  stripZeros_normalized _

theorem subAbs_normalized (a b : BigInt) : Normalized (a.subAbs b).digits :=
  stripZeros_normalized _

theorem sub_normalized (a b : BigInt) : Normalized (a.sub b).digits := by
  obtain ⟨da, sa⟩ := a
  obtain ⟨db, sb⟩ := b
  cases sa <;> cases sb <;> simp only [BigInt.sub]
  · split
    · exact subAbs_normalized _ _
    · simp [BigInt.new, Normalized]
    · exact subAbs_normalized _ _
  · exact magAdd_normalized _ _
  · exact magAdd_normalized _ _
  · split
    · exact subAbs_normalized _ _
    · simp [BigInt.new, Normalized]
    · exact subAbs_normalized _ _

theorem add_normalized (a b : BigInt) : Normalized (a.add b).digits := by
  obtain ⟨da, sa⟩ := a
  obtain ⟨db, sb⟩ := b
  cases sa <;> cases sb <;> simp only [BigInt.add]
  · exact magAdd_normalized _ _
  · exact sub_normalized _ _
  · exact sub_normalized _ _
  · exact magAdd_normalized _ _

/-!
Pointwise congruence of the carry loop, used for commutativity of addition.
-/

theorem getD_zero_headD (bs : List Nat) : bs.getD 0 0 = bs.headD 0 := by
  cases bs <;> rfl

theorem getD_succ_tail (bs : List Nat) (i : Nat) :
    bs.tail.getD i 0 = bs.getD (i + 1) 0 := by
  cases bs <;> simp [List.getD_cons_succ]

theorem getD_replicate_zero (k : Nat) : ∀ i, (List.replicate k 0).getD i 0 = 0 := by
  induction k with
  | zero => intro i; rfl
  | succ n ihk =>
    intro i
    cases i with
    | zero => rfl
    | succ j =>
      rw [List.replicate, List.getD_cons_succ]
      exact ihk j

theorem getD_append_replicate_zero (l : List Nat) (k : Nat) :
    ∀ i, (l ++ List.replicate k 0).getD i 0 = l.getD i 0 := by
  induction l with
  | nil =>
    intro i
    simp only [List.nil_append]
    rw [getD_replicate_zero]
    cases i <;> rfl
  | cons x t ih =>
    intro i
    cases i with
    | zero => rfl
    | succ j =>
      simp only [List.cons_append, List.getD_cons_succ]
      exact ih j

theorem addLoop_congr (as : List Nat) : ∀ (as2 bs bs2 : List Nat) (c : Nat),
    as.length = as2.length →
    (∀ i, as.getD i 0 + bs.getD i 0 = as2.getD i 0 + bs2.getD i 0) →
    addLoop as bs c = addLoop as2 bs2 c := by
  induction as with
  | nil =>
    intro as2 bs bs2 c hlen _
    have h : as2 = [] := List.length_eq_zero.mp hlen.symm
    subst h
    rfl
  | cons a t ih =>
    intro as2 bs bs2 c hlen hpt
    cases as2 with
    | nil => simp at hlen
    | cons a2 t2 =>
      have h0 := hpt 0
      simp only [List.getD_cons_zero, getD_zero_headD] at h0
      have hlen' : t.length = t2.length := by simpa using hlen
      have hpt' : ∀ i, t.getD i 0 + bs.tail.getD i 0 = t2.getD i 0 + bs2.tail.getD i 0 := by
        intro i
        have h := hpt (i + 1)
        simpa [List.getD_cons_succ, getD_succ_tail] using h
      simp only [addLoop]
      rw [h0, ih t2 bs.tail bs2.tail 1 hlen' hpt', ih t2 bs.tail bs2.tail 0 hlen' hpt']

theorem magAdd_comm_core (da db : List Nat) (s : Sign) :
    BigInt.magAdd ⟨da, s⟩ ⟨db, s⟩ = BigInt.magAdd ⟨db, s⟩ ⟨da, s⟩ := by
  have hcongr : addLoop (da ++ List.replicate (max da.length db.length + 1 - da.length) 0) db 0 =
      addLoop (db ++ List.replicate (max db.length da.length + 1 - db.length) 0) da 0 := by
    apply addLoop_congr
    · simp only [List.length_append, List.length_replicate]
      omega
    · intro i
      rw [getD_append_replicate_zero, getD_append_replicate_zero]
      omega
  unfold BigInt.magAdd
  simp only
  rw [hcongr]

/-!
Digit-range propagation: the operations keep every digit in `[0, 9]`.
-/

theorem magAdd_digitsOk (a b : BigInt) (ha : DigitsOk a) (hb : DigitsOk b) :
    DigitsOk (a.magAdd b) := by
  intro d hd
  simp only [BigInt.magAdd] at hd
  have hd' := mem_stripZeros hd
  have hpad : ∀ x ∈ a.digits ++ List.replicate (max a.digits.length b.digits.length + 1 - a.digits.length) 0, x ≤ 9 := by
    intro x hx
    rcases List.mem_append.mp hx with h | h
    · exact ha x h
    · rcases List.mem_replicate.mp h with ⟨_, h0⟩
      omega
  obtain ⟨h1, h2⟩ := addLoop_bounds _ b.digits 0 hpad hb (by omega)
  by_cases hc : (addLoop (a.digits ++ List.replicate (max a.digits.length b.digits.length + 1 - a.digits.length) 0) b.digits 0).2 > 0
  · rw [if_pos hc] at hd'
    rcases List.mem_append.mp hd' with h | h
    · exact h1 d h
    · have hd2 : d = (addLoop (a.digits ++ List.replicate (max a.digits.length b.digits.length + 1 - a.digits.length) 0) b.digits 0).2 := by
        simpa using h
      omega
  · rw [if_neg hc] at hd'
    exact h1 d hd'

theorem subAbs_digitsOk (a b : BigInt) (ha : DigitsOk a) (hb : DigitsOk b) :
    DigitsOk (a.subAbs b) := by
  intro d hd
  simp only [BigInt.subAbs] at hd
  have hd' := mem_stripZeros hd
  exact subLoop_bounds a.digits b.digits 0 ha hb (by omega) d hd'

theorem sub_digitsOk (a b : BigInt) (ha : DigitsOk a) (hb : DigitsOk b) :
    DigitsOk (a.sub b) := by
  obtain ⟨da, sa⟩ := a
  obtain ⟨db, sb⟩ := b
  cases sa <;> cases sb <;> simp only [BigInt.sub]
  · split
    · exact subAbs_digitsOk _ _ ha hb
    · intro d hd; simp [BigInt.new] at hd
    · intro d hd
      exact subAbs_digitsOk _ _ hb ha d hd
  · exact magAdd_digitsOk _ _ ha hb
  · intro d hd
    exact magAdd_digitsOk _ _ ha hb d hd
  · split
    · intro d hd
      exact subAbs_digitsOk _ _ ha hb d hd
    · intro d hd; simp [BigInt.new] at hd
    · exact subAbs_digitsOk _ _ hb ha

theorem add_digitsOk (a b : BigInt) (ha : DigitsOk a) (hb : DigitsOk b) :
    DigitsOk (a.add b) := by
  obtain ⟨da, sa⟩ := a
  obtain ⟨db, sb⟩ := b
  cases sa <;> cases sb <;> simp only [BigInt.add]
  · exact magAdd_digitsOk _ _ ha hb
  · exact sub_digitsOk _ _ ha hb
  · exact sub_digitsOk _ _ hb ha
  · exact magAdd_digitsOk _ _ ha hb

/-!
Length comparison from values, needed for the `sub_abs` correctness claim.
-/

theorem length_le_of_listVal_le (la lb : List Nat) (hla : ∀ d ∈ la, d ≤ 9)
    (hnb : Normalized lb) (hle : listVal lb ≤ listVal la) :
    lb.length ≤ la.length := by
  cases hlb : lb.getLast? with
  | none =>
    have h : lb = [] := List.getLast?_eq_none_iff.mp hlb
    simp [h]
  | some d =>
    have hd : d ≠ 0 := fun h0 => hnb (h0 ▸ hlb)
    have h1 : 10 ^ (lb.length - 1) * d ≤ listVal lb := le_getLast_listVal lb d hlb
    have h2 : listVal la < 10 ^ la.length := listVal_lt la hla
    have h3 : 10 ^ (lb.length - 1) ≤ 10 ^ (lb.length - 1) * d :=
      Nat.le_mul_of_pos_right _ (Nat.pos_of_ne_zero hd)
    have h4 : 10 ^ (lb.length - 1) < 10 ^ la.length := by omega
    have h5 : lb.length - 1 < la.length := by
      by_contra hcon
      push_neg at hcon
      exact absurd h4 (not_lt.mpr (Nat.pow_le_pow_right (by norm_num) hcon))
    have h6 : lb ≠ [] := by
      intro h
      subst h
      simp at hlb
    have h7 : 1 ≤ lb.length := List.length_pos.mpr h6
    omega

theorem sub_neg_pos_core (da db : List Nat) :
    BigInt.sub ⟨da, Sign.Negative⟩ ⟨db, Sign.Positive⟩ =
      BigInt.add ⟨da, Sign.Negative⟩ ⟨db, Sign.Negative⟩ ∧
    (BigInt.sub ⟨da, Sign.Negative⟩ ⟨db, Sign.Positive⟩).sign = Sign.Negative :=
  ⟨rfl, rfl⟩

/-- Claim C1: for a negative and b positive, `sub a b` equals
`add a ⟨b.digits, Negative⟩` (the source delegates to `add` with b's sign
flipped to negative and then overwrites the sign), and the result's sign is
`Negative` unconditionally, even when the returned digit sequence is empty. -/
theorem sub_neg_pos_claim (a b : BigInt) (ha : a.sign = Sign.Negative)
    (hb : b.sign = Sign.Positive) :
    a.sub b = a.add ⟨b.digits, Sign.Negative⟩ ∧ (a.sub b).sign = Sign.Negative := by
  obtain ⟨da, sa⟩ := a
  obtain ⟨db, sb⟩ := b
  cases sa <;> cases sb
  · simp at ha
  · simp at ha
  · exact sub_neg_pos_core da db
  · simp at hb

/-- Witness for claim C1, at the zero-magnitude input where the forced
negative sign is visible on an empty digit sequence. -/
theorem sub_neg_pos_claim_witness :
    (⟨[], Sign.Negative⟩ : BigInt).sign = Sign.Negative ∧
    (⟨[], Sign.Positive⟩ : BigInt).sign = Sign.Positive ∧
    (BigInt.sub ⟨[], Sign.Negative⟩ ⟨[], Sign.Positive⟩ =
        BigInt.add ⟨[], Sign.Negative⟩ ⟨[], Sign.Negative⟩ ∧
      (BigInt.sub ⟨[], Sign.Negative⟩ ⟨[], Sign.Positive⟩).sign = Sign.Negative) :=
  ⟨rfl, rfl, sub_neg_pos_claim ⟨[], Sign.Negative⟩ ⟨[], Sign.Positive⟩ rfl rfl⟩

/-- Claim C4 (counterexample evaluation): with a = 1 and b = −2,
`add a b` is −1, and `sub (add a b) b` is −1 rather than a = 1: the
Negative/Negative branch of `sub` with smaller magnitude returns
`b.sub_abs(self)`, which inherits b's Negative sign and is never reset to
Positive. -/
theorem sub_add_inverse_fails :
    BigInt.sub (BigInt.add ⟨[1], Sign.Positive⟩ ⟨[2], Sign.Negative⟩)
        ⟨[2], Sign.Negative⟩ = ⟨[1], Sign.Negative⟩ ∧
    (⟨[1], Sign.Negative⟩ : BigInt) ≠ ⟨[1], Sign.Positive⟩ :=
  ⟨rfl, by decide⟩

/-- Claim C5: addition is commutative for all BigInt operands. -/
theorem add_commutative (a b : BigInt) : a.add b = b.add a := by
  obtain ⟨da, sa⟩ := a
  obtain ⟨db, sb⟩ := b
  cases sa <;> cases sb <;> simp only [BigInt.add] <;>
    first
      | rfl
      | exact magAdd_comm_core da db Sign.Positive
      | exact magAdd_comm_core da db Sign.Negative

/-- Claim C7: for digit-bounded, normalized operands with |a| at least |b|,
`sub_abs` returns the digit sequence of |a| − |b| and it carries no trailing
(high-order) zero digit. -/
theorem subAbs_correct (a b : BigInt) (ha : DigitsOk a) (hb : DigitsOk b)
    (_hna : Normalized a.digits) (hnb : Normalized b.digits)
    (hge : listVal b.digits ≤ listVal a.digits) :
    listVal (a.subAbs b).digits = listVal a.digits - listVal b.digits ∧
    Normalized (a.subAbs b).digits := by
  refine ⟨?_, subAbs_normalized a b⟩
  have hlen : b.digits.length ≤ a.digits.length :=
    length_le_of_listVal_le a.digits b.digits ha hnb hge
  have h := subLoop_listVal a.digits b.digits 0 ha hb (by omega) hlen (by omega)
  calc listVal (a.subAbs b).digits
      = listVal (subLoop a.digits b.digits 0) := stripZeros_listVal _
    _ = listVal a.digits - listVal b.digits - 0 := h
    _ = listVal a.digits - listVal b.digits := by omega

/-- Witness for claim C7 at a = 15, b = 9: the result is the single digit 6. -/
theorem subAbs_correct_witness :
    (DigitsOk ⟨[5, 1], Sign.Positive⟩ ∧ DigitsOk ⟨[9], Sign.Positive⟩ ∧
      Normalized [5, 1] ∧ Normalized [9] ∧ listVal [9] ≤ listVal [5, 1]) ∧
    (listVal (BigInt.subAbs ⟨[5, 1], Sign.Positive⟩ ⟨[9], Sign.Positive⟩).digits =
        listVal [5, 1] - listVal [9] ∧
      Normalized (BigInt.subAbs ⟨[5, 1], Sign.Positive⟩ ⟨[9], Sign.Positive⟩).digits) :=
  ⟨⟨by decide, by decide, by decide, by decide, by decide⟩,
    subAbs_correct ⟨[5, 1], Sign.Positive⟩ ⟨[9], Sign.Positive⟩
      (by decide) (by decide) (by decide) (by decide) (by decide)⟩

/-- Claim C9: the dispatch structure of `add` and `sub`.  Each mixed-sign case
of `add` equals a `sub` call whose two arguments are same-signed, each
mixed-sign case of `sub` equals an `add` call whose two arguments are
same-signed, and the same-sign cases are primitive (carry loop or
compare-and-borrow), so the mutual delegation bottoms out after one step and
both operations are total. -/
theorem add_sub_delegation (a b : BigInt) :
    (a.sign = Sign.Positive → b.sign = Sign.Negative →
      a.add b = a.sub ⟨b.digits, Sign.Positive⟩) ∧
    (a.sign = Sign.Negative → b.sign = Sign.Positive →
      a.add b = b.sub ⟨a.digits, Sign.Positive⟩) ∧
    (a.sign = Sign.Positive → b.sign = Sign.Negative →
      a.sub b = a.add ⟨b.digits, Sign.Positive⟩) ∧
    (a.sign = Sign.Negative → b.sign = Sign.Positive →
      a.sub b = { a.add ⟨b.digits, Sign.Negative⟩ with sign := Sign.Negative }) ∧
    (a.sign = b.sign → a.add b = a.magAdd b) ∧
    (a.sign = Sign.Positive → b.sign = Sign.Positive →
      a.sub b =
        match a.cmpAbs b with
        | Ordering.gt => a.subAbs b
        | Ordering.eq => BigInt.new
        | Ordering.lt => { b.subAbs a with sign := Sign.Negative }) ∧
    (a.sign = Sign.Negative → b.sign = Sign.Negative →
      a.sub b =
        match a.cmpAbs b with
        | Ordering.gt => { a.subAbs b with sign := Sign.Negative }
        | Ordering.eq => BigInt.new
        | Ordering.lt => b.subAbs a) := by
  obtain ⟨da, sa⟩ := a
  obtain ⟨db, sb⟩ := b
  cases sa <;> cases sb <;>
    refine ⟨?_, ?_, ?_, ?_, ?_, ?_, ?_⟩ <;>
    intros <;>
    first
      | rfl
      | simp_all

/-- Witness for claim C9 at a = 1, b = −2. -/
theorem add_sub_delegation_witness :
    (⟨[1], Sign.Positive⟩ : BigInt).sign = Sign.Positive ∧
    (⟨[2], Sign.Negative⟩ : BigInt).sign = Sign.Negative ∧
    BigInt.add ⟨[1], Sign.Positive⟩ ⟨[2], Sign.Negative⟩ =
      BigInt.sub ⟨[1], Sign.Positive⟩ ⟨[2], Sign.Positive⟩ :=
  ⟨rfl, rfl,
    (add_sub_delegation ⟨[1], Sign.Positive⟩ ⟨[2], Sign.Negative⟩).1 rfl rfl⟩

/-- Claim C10: for every pair of operands, normalized or not, `add` and `sub`
return digit sequences with no trailing (high-order) zero digit; zero is only
ever returned as the empty digit sequence. -/
theorem add_sub_results_normalized (a b : BigInt) :
    Normalized (a.add b).digits ∧ Normalized (a.sub b).digits :=
  ⟨add_normalized a b, sub_normalized a b⟩

/-!
Parsing lemmas.
-/

theorem except_map_eq_error {α β : Type} (f : α → β) (x : Except String α) (e : String) :
    Except.map f x = Except.error e ↔ x = Except.error e := by
  cases x <;> simp [Except.map]

theorem parseDigits_ne_invalid_argument (l : List Char) :
    parseDigits l ≠ Except.error "Invalid argument" := by
  induction l with
  | nil => simp [parseDigits]
  | cons c cs ih =>
    simp only [parseDigits]
    cases hd : digitVal? c with
    | none =>
      intro h
      injection h with h2
      exact absurd h2 (by decide)
    | some d =>
      intro h
      rw [except_map_eq_error] at h
      exact ih h

theorem parseDigits_error_iff (l : List Char) :
    parseDigits l = Except.error "Invalid digit" ↔ ∃ c ∈ l, digitVal? c = none := by
  induction l with
  | nil => simp [parseDigits]
  | cons c cs ih =>
    simp only [parseDigits]
    cases hd : digitVal? c with
    | none =>
      constructor
      · intro _
        exact ⟨c, List.mem_cons_self c cs, hd⟩
      · intro _
        rfl
    | some d =>
      rw [except_map_eq_error, ih]
      constructor
      · rintro ⟨x, hx, hnone⟩
        exact ⟨x, List.mem_cons_of_mem c hx, hnone⟩
      · rintro ⟨x, hx, hnone⟩
        rcases List.mem_cons.mp hx with rfl | hx2
        · rw [hd] at hnone
          exact absurd hnone (by simp)
        · exact ⟨x, hx2, hnone⟩

theorem parseDigits_ok (l : List Char) (h : ∀ c ∈ l, 48 ≤ c.toNat ∧ c.toNat ≤ 57) :
    parseDigits l = Except.ok (l.map (fun c => c.toNat - 48)) := by
  induction l with
  | nil => rfl
  | cons c cs ih =>
    have hc := h c (List.mem_cons_self c cs)
    have hcs : ∀ x ∈ cs, 48 ≤ x.toNat ∧ x.toNat ≤ 57 :=
      fun x hx => h x (List.mem_cons_of_mem c hx)
    simp only [parseDigits, digitVal?, if_pos hc, ih hcs, Except.map, List.map_cons]

theorem fromStr_data_neg (s : String) (rest : List Char) (h : s.data = '-' :: rest) :
    BigInt.fromStr s =
      (parseDigits rest.reverse).map (fun ds => { digits := ds, sign := Sign.Negative }) := by
  unfold BigInt.fromStr
  rw [h]
  rfl

theorem fromStr_data_other (s : String) (c : Char) (rest : List Char)
    (h : s.data = c :: rest) (hc : c ≠ '-') :
    BigInt.fromStr s =
      (parseDigits (c :: rest).reverse).map (fun ds => { digits := ds, sign := Sign.Positive }) := by
  unfold BigInt.fromStr
  rw [h]
  split
  · rename_i heq
    exact absurd heq (List.cons_ne_nil c rest)
  · rename_i heq
    injection heq with h1 h2
    exact absurd h1 hc
  · rfl

theorem digitPart_other (c : Char) (rest : List Char) (hc : c ≠ '-') :
    digitPart (c :: rest) = c :: rest := by
  unfold digitPart
  split
  · rename_i heq
    injection heq with h1 h2
    exact absurd h1 hc
  · rfl

theorem fromStr_invalid_argument_iff (s : String) :
    BigInt.fromStr s = Except.error "Invalid argument" ↔ s.data = [] := by
  constructor
  · intro h
    cases hs : s.data with
    | nil => rfl
    | cons c rest =>
      exfalso
      by_cases hc : c = '-'
      · subst hc
        rw [fromStr_data_neg s rest hs, except_map_eq_error] at h
        exact parseDigits_ne_invalid_argument _ h
      · rw [fromStr_data_other s c rest hs hc, except_map_eq_error] at h
        exact parseDigits_ne_invalid_argument _ h
  · intro h
    unfold BigInt.fromStr
    rw [h]

theorem fromStr_invalid_digit_iff (s : String) :
    BigInt.fromStr s = Except.error "Invalid digit" ↔
      s.data ≠ [] ∧ ∃ c ∈ digitPart s.data, digitVal? c = none := by
  cases hs : s.data with
  | nil =>
    constructor
    · intro h
      exfalso
      unfold BigInt.fromStr at h
      rw [hs] at h
      injection h with h2
      exact absurd h2 (by decide)
    · rintro ⟨hne, _⟩
      exact absurd rfl hne
  | cons c rest =>
    by_cases hc : c = '-'
    · subst hc
      rw [fromStr_data_neg s rest hs, except_map_eq_error, parseDigits_error_iff]
      simp only [digitPart]
      constructor
      · rintro ⟨x, hx, hnone⟩
        exact ⟨by simp, ⟨x, List.mem_reverse.mp hx, hnone⟩⟩
      · rintro ⟨_, x, hx, hnone⟩
        exact ⟨x, List.mem_reverse.mpr hx, hnone⟩
    · rw [fromStr_data_other s c rest hs hc, except_map_eq_error, parseDigits_error_iff,
        digitPart_other c rest hc]
      constructor
      · rintro ⟨x, hx, hnone⟩
        exact ⟨by simp, ⟨x, List.mem_reverse.mp hx, hnone⟩⟩
      · rintro ⟨_, x, hx, hnone⟩
        exact ⟨x, List.mem_reverse.mpr hx, hnone⟩

/-- Claim C6: parsing fails with "Invalid argument" exactly when the input is
empty, fails with "Invalid digit" exactly when some character after the
optional leading minus is not a decimal digit, and the bare "-" is accepted,
producing an empty digit sequence tagged Negative that renders as "0". -/
theorem parse_error_behavior (s : String) :
    (BigInt.fromStr s = Except.error "Invalid argument" ↔ s.data = []) ∧
    (BigInt.fromStr s = Except.error "Invalid digit" ↔
      s.data ≠ [] ∧ ∃ c ∈ digitPart s.data, digitVal? c = none) ∧
    BigInt.fromStr "-" = Except.ok ⟨[], Sign.Negative⟩ ∧
    BigInt.toString ⟨[], Sign.Negative⟩ = "0" :=
  ⟨fromStr_invalid_argument_iff s, fromStr_invalid_digit_iff s, rfl, rfl⟩

/-!
Rendering lemmas.
-/

theorem foldl_append_data (l : List String) : ∀ (acc : String),
    (l.foldl (fun a b => a ++ b) acc).data = acc.data ++ (l.map String.data).flatten := by
  induction l with
  | nil => intro acc; simp
  | cons x t ih =>
    intro acc
    rw [List.foldl_cons, ih (acc ++ x), List.map_cons, List.flatten_cons,
      String.data_append, List.append_assoc]

theorem join_data (l : List String) :
    (String.join l).data = (l.map String.data).flatten := by
  have h := foldl_append_data l ""
  simpa [String.join] using h

theorem repr_digit_char (c : Char) (h48 : 48 ≤ c.toNat) (h57 : c.toNat ≤ 57) :
    Nat.repr (c.toNat - 48) = String.mk [c] := by
  have hc : Char.ofNat c.toNat = c := Char.ofNat_toNat c
  conv_rhs => rw [← hc]
  generalize hg : c.toNat = n
  rw [hg] at h48 h57
  interval_cases n <;> decide

theorem flatten_map_repr (l : List Char) :
    (∀ c ∈ l, 48 ≤ c.toNat ∧ c.toNat ≤ 57) →
    ((l.map (fun c => Nat.repr (c.toNat - 48))).map String.data).flatten = l := by
  induction l with
  | nil => intro _; rfl
  | cons c t ih =>
    intro h
    have hc := h c (List.mem_cons_self c t)
    have ht : ∀ x ∈ t, 48 ≤ x.toNat ∧ x.toNat ≤ 57 :=
      fun x hx => h x (List.mem_cons_of_mem c hx)
    simp only [List.map_cons, List.flatten_cons]
    rw [repr_digit_char c hc.1 hc.2, ih ht]
    rfl

theorem toString_pos_of_digits (l : List Char) (h : ∀ c ∈ l, 48 ≤ c.toNat ∧ c.toNat ≤ 57)
    (hne : l ≠ []) :
    BigInt.toString ⟨l.reverse.map (fun c => c.toNat - 48), Sign.Positive⟩ = String.mk l := by
  simp only [BigInt.toString]
  have hmaps : (l.reverse.map (fun c => c.toNat - 48)).reverse.map Nat.repr
      = l.map (fun c => Nat.repr (c.toNat - 48)) := by
    rw [← List.map_reverse, List.reverse_reverse, List.map_map]
    rfl
  rw [hmaps]
  have hdata : (String.join (l.map (fun c => Nat.repr (c.toNat - 48)))).data = l := by
    rw [join_data]
    exact flatten_map_repr l h
  have hne2 : ¬ String.join (l.map (fun c => Nat.repr (c.toNat - 48))) = "" := by
    intro h0
    rw [h0] at hdata
    exact hne hdata.symm
  rw [if_neg hne2]
  apply String.ext
  rw [String.data_append, hdata]
  rfl

theorem toString_neg_of_digits (l : List Char) (h : ∀ c ∈ l, 48 ≤ c.toNat ∧ c.toNat ≤ 57)
    (hne : l ≠ []) :
    BigInt.toString ⟨l.reverse.map (fun c => c.toNat - 48), Sign.Negative⟩ =
      String.mk ('-' :: l) := by
  simp only [BigInt.toString]
  have hmaps : (l.reverse.map (fun c => c.toNat - 48)).reverse.map Nat.repr
      = l.map (fun c => Nat.repr (c.toNat - 48)) := by
    rw [← List.map_reverse, List.reverse_reverse, List.map_map]
    rfl
  rw [hmaps]
  have hdata : (String.join (l.map (fun c => Nat.repr (c.toNat - 48)))).data = l := by
    rw [join_data]
    exact flatten_map_repr l h
  have hne2 : ¬ String.join (l.map (fun c => Nat.repr (c.toNat - 48))) = "" := by
    intro h0
    rw [h0] at hdata
    exact hne hdata.symm
  rw [if_neg hne2]
  apply String.ext
  rw [String.data_append, hdata]
  rfl

theorem roundtrip_pos (c : Char) (cs : List Char)
    (hdig : ∀ x ∈ c :: cs, 48 ≤ x.toNat ∧ x.toNat ≤ 57) (hcne : c ≠ '-') :
    BigInt.fromStr (String.mk (c :: cs)) =
      Except.ok ⟨(c :: cs).reverse.map (fun x => x.toNat - 48), Sign.Positive⟩ := by
  rw [fromStr_data_other (String.mk (c :: cs)) c cs rfl hcne]
  rw [parseDigits_ok ((c :: cs).reverse) (fun x hx => hdig x (List.mem_reverse.mp hx))]
  rfl

theorem roundtrip_neg (r : List Char)
    (hrdig : ∀ x ∈ r, 48 ≤ x.toNat ∧ x.toNat ≤ 57) :
    BigInt.fromStr (String.mk ('-' :: r)) =
      Except.ok ⟨r.reverse.map (fun x => x.toNat - 48), Sign.Negative⟩ := by
  rw [fromStr_data_neg (String.mk ('-' :: r)) r rfl]
  rw [parseDigits_ok r.reverse (fun x hx => hrdig x (List.mem_reverse.mp hx))]
  rfl

/-- Claim C3: for every valid decimal string (optional leading minus, one or
more digits, no leading zero digit unless the digit part is exactly "0"),
parsing succeeds and rendering the parsed BigInt returns exactly the input
string. -/
theorem roundtrip_claim (s : String) (h : ValidDec s) :
    ∃ v, BigInt.fromStr s = Except.ok v ∧ BigInt.toString v = s := by
  obtain ⟨sd⟩ := s
  unfold ValidDec at h
  rcases h with hv | ⟨r, hdata, hv⟩
  · unfold ValidDigitStr at hv
    obtain ⟨hne, hdig, _⟩ := hv
    cases sd with
    | nil => exact absurd rfl hne
    | cons c cs =>
      have hdig2 : ∀ x ∈ c :: cs, 48 ≤ x.toNat ∧ x.toNat ≤ 57 := hdig
      have hc := hdig2 c (List.mem_cons_self c cs)
      have hcne : c ≠ '-' := by
        intro hceq
        subst hceq
        have h45 : ('-' : Char).toNat = 45 := rfl
        omega
      have step1 : BigInt.fromStr (String.mk (c :: cs)) =
          Except.ok ⟨(c :: cs).reverse.map (fun x => x.toNat - 48), Sign.Positive⟩ :=
        roundtrip_pos c cs hdig2 hcne
      have step2 : BigInt.toString ⟨(c :: cs).reverse.map (fun x => x.toNat - 48), Sign.Positive⟩ = String.mk (c :: cs) :=
        toString_pos_of_digits (c :: cs) hdig2 (List.cons_ne_nil c cs)
      exact ⟨_, step1, step2⟩
  · unfold ValidDigitStr at hv
    obtain ⟨hrne, hrdig, _⟩ := hv
    have hd : sd = '-' :: r := by simpa using hdata
    subst hd
    have step1 : BigInt.fromStr (String.mk ('-' :: r)) =
        Except.ok ⟨r.reverse.map (fun x => x.toNat - 48), Sign.Negative⟩ :=
      roundtrip_neg r hrdig
    have step2 : BigInt.toString ⟨r.reverse.map (fun x => x.toNat - 48), Sign.Negative⟩ =
        String.mk ('-' :: r) :=
      toString_neg_of_digits r hrdig hrne
    exact ⟨_, step1, step2⟩

theorem roundtrip_claim_witness :
    ValidDec "-120" ∧
    ∃ v, BigInt.fromStr "-120" = Except.ok v ∧ BigInt.toString v = "-120" :=
  ⟨Or.inr ⟨['1', '2', '0'], rfl, by decide⟩,
    roundtrip_claim "-120" (Or.inr ⟨['1', '2', '0'], rfl, by decide⟩)⟩

/-!
Canonical-form facts about rendered results.
-/

theorem toString_nil (sg : Sign) : BigInt.toString ⟨[], sg⟩ = "0" := by
  cases sg <;> rfl

theorem digits_empty_iff_val_zero (l : List Nat) (hn : Normalized l) :
    l = [] ↔ listVal l = 0 := by
  constructor
  · rintro rfl
    rfl
  · intro h0
    by_contra hne
    have hpos := listVal_pos_of_normalized l hn hne
    omega

theorem repr_digit_data (d : Nat) (h1 : 1 ≤ d) (h9 : d ≤ 9) :
    (Nat.repr d).data = [Char.ofNat (48 + d)] ∧ Char.ofNat (48 + d) ≠ '0' ∧
      Char.ofNat (48 + d) ≠ '-' := by
  interval_cases d <;> exact ⟨rfl, by decide, by decide⟩

theorem toString_noLeadingZero (v : BigInt) (hn : Normalized v.digits) (hv : DigitsOk v) :
    NoLeadingZero (BigInt.toString v) := by
  obtain ⟨ds, sg⟩ := v
  cases hrev : ds.reverse with
  | nil =>
    have hds : ds = [] := by
      have h := congrArg List.reverse hrev
      simpa using h
    subst hds
    left
    exact toString_nil sg
  | cons d rest =>
    have hlast : ds.getLast? = some d := by
      rw [← List.head?_reverse, hrev]
      rfl
    have hd0 : d ≠ 0 := fun h0 => hn (h0 ▸ hlast)
    have hd1 : 1 ≤ d := Nat.pos_of_ne_zero hd0
    have hd9 : d ≤ 9 := hv d (by
      rw [← List.mem_reverse, hrev]
      exact List.mem_cons_self d rest)
    obtain ⟨hdata1, hne0, hnedash⟩ := repr_digit_data d hd1 hd9
    simp only [BigInt.toString, hrev, List.map_cons]
    have hjdata : (String.join (Nat.repr d :: rest.map Nat.repr)).data
        = Char.ofNat (48 + d) :: ((rest.map Nat.repr).map String.data).flatten := by
      rw [join_data, List.map_cons, List.flatten_cons, hdata1]
      rfl
    have hjne : ¬ String.join (Nat.repr d :: rest.map Nat.repr) = "" := by
      intro h0
      rw [h0] at hjdata
      simp at hjdata
    rw [if_neg hjne]
    right
    have hemp : ("" : String).data = [] := rfl
    cases sg
    · simp only [String.data_append, hemp, List.nil_append, hjdata]
      rw [digitPart_other _ _ hnedash]
      simp only [List.head?_cons, ne_eq, Option.some.injEq]
      exact hne0
    · have hdash : ("-" : String).data = ['-'] := rfl
      simp only [String.data_append, hdash, hjdata, List.cons_append, List.nil_append]
      simp only [digitPart]
      simp only [List.head?_cons, ne_eq, Option.some.injEq]
      exact hne0

/-- Claim C2 (counterexample): parse does not normalize its result: "01"
parses successfully to the digit sequence [1, 0], whose high-order stored
element is zero, and rendering it emits the leading-zero string "01". -/
theorem parse_unnormalized_counterexample :
    BigInt.fromStr "01" = Except.ok ⟨[1, 0], Sign.Positive⟩ ∧
    (⟨[1, 0], Sign.Positive⟩ : BigInt).digits.getLast? = some 0 ∧
    BigInt.toString ⟨[1, 0], Sign.Positive⟩ = "01" ∧
    ¬ NoLeadingZero (BigInt.toString ⟨[1, 0], Sign.Positive⟩) := by
  refine ⟨rfl, rfl, rfl, ?_⟩
  intro h
  rcases h with h | h
  · exact absurd h (by decide)
  · exact h rfl

/-- Claim C2 (amended): every BigInt returned by add or subtract on
digit-bounded operands has no trailing (high-order) zero digit, the empty
sequence is its only representation of zero, and its rendering has no leading
zero digit (the lone "0" standing for zero); parse, however, returns its
digit sequence unnormalized. -/
theorem add_sub_canonical (a b : BigInt) (ha : DigitsOk a) (hb : DigitsOk b) :
    Normalized (a.add b).digits ∧ Normalized (a.sub b).digits ∧
    ((a.add b).digits = [] ↔ listVal (a.add b).digits = 0) ∧
    ((a.sub b).digits = [] ↔ listVal (a.sub b).digits = 0) ∧
    NoLeadingZero (BigInt.toString (a.add b)) ∧
    NoLeadingZero (BigInt.toString (a.sub b)) :=
  ⟨add_normalized a b, sub_normalized a b,
    digits_empty_iff_val_zero _ (add_normalized a b),
    digits_empty_iff_val_zero _ (sub_normalized a b),
    toString_noLeadingZero _ (add_normalized a b) (add_digitsOk a b ha hb),
    toString_noLeadingZero _ (sub_normalized a b) (sub_digitsOk a b ha hb)⟩

/-- Witness for the amended claim C2 at a = 12, b = −9. -/
theorem add_sub_canonical_witness :
    DigitsOk ⟨[2, 1], Sign.Positive⟩ ∧ DigitsOk ⟨[9], Sign.Negative⟩ ∧
    (Normalized (BigInt.add ⟨[2, 1], Sign.Positive⟩ ⟨[9], Sign.Negative⟩).digits ∧
      Normalized (BigInt.sub ⟨[2, 1], Sign.Positive⟩ ⟨[9], Sign.Negative⟩).digits ∧
      ((BigInt.add ⟨[2, 1], Sign.Positive⟩ ⟨[9], Sign.Negative⟩).digits = [] ↔
        listVal (BigInt.add ⟨[2, 1], Sign.Positive⟩ ⟨[9], Sign.Negative⟩).digits = 0) ∧
      ((BigInt.sub ⟨[2, 1], Sign.Positive⟩ ⟨[9], Sign.Negative⟩).digits = [] ↔
        listVal (BigInt.sub ⟨[2, 1], Sign.Positive⟩ ⟨[9], Sign.Negative⟩).digits = 0) ∧
      NoLeadingZero (BigInt.toString (BigInt.add ⟨[2, 1], Sign.Positive⟩ ⟨[9], Sign.Negative⟩)) ∧
      NoLeadingZero (BigInt.toString (BigInt.sub ⟨[2, 1], Sign.Positive⟩ ⟨[9], Sign.Negative⟩))) :=
  ⟨by decide, by decide,
    add_sub_canonical ⟨[2, 1], Sign.Positive⟩ ⟨[9], Sign.Negative⟩ (by decide) (by decide)⟩

/-!
The checked (u8-faithful) variants coincide with the unchecked operations on
digit-bounded operands: no u8 overflow or underflow is reachable.
-/

theorem addLoopChk_eq (as : List Nat) : ∀ (bs : List Nat) (c : Nat),
    (∀ d ∈ as, d ≤ 9) → (∀ d ∈ bs, d ≤ 9) → c ≤ 1 →
    addLoopChk as bs c = some (addLoop as bs c) := by
  induction as with
  | nil => intro bs c _ _ _; rfl
  | cons a t ih =>
    intro bs c ha hb hc
    have ha9 : a ≤ 9 := ha a (List.mem_cons_self a t)
    have hat : ∀ d ∈ t, d ≤ 9 := fun d hd => ha d (List.mem_cons_of_mem a hd)
    have hb9 : bs.headD 0 ≤ 9 := headD_le_of_mem bs hb
    have hbt : ∀ d ∈ bs.tail, d ≤ 9 := tail_bound bs hb
    simp only [addLoopChk, addLoop]
    rw [if_neg (by omega), if_neg (by omega)]
    by_cases hs : a + bs.headD 0 + c ≥ 10
    · rw [if_pos hs, if_pos hs, ih bs.tail 1 hat hbt (le_refl 1)]
      rfl
    · rw [if_neg hs, if_neg hs, ih bs.tail 0 hat hbt (by omega)]
      rfl

theorem subLoopChk_eq (as : List Nat) : ∀ (bs : List Nat) (br : Nat),
    (∀ d ∈ as, d ≤ 9) → (∀ d ∈ bs, d ≤ 9) → br ≤ 1 →
    subLoopChk as bs br = some (subLoop as bs br) := by
  induction as with
  | nil => intro bs br _ _ _; rfl
  | cons a t ih =>
    intro bs br ha hb hbr
    have ha9 : a ≤ 9 := ha a (List.mem_cons_self a t)
    have hat : ∀ d ∈ t, d ≤ 9 := fun d hd => ha d (List.mem_cons_of_mem a hd)
    have hb9 : bs.headD 0 ≤ 9 := headD_le_of_mem bs hb
    have hbt : ∀ d ∈ bs.tail, d ≤ 9 := tail_bound bs hb
    simp only [subLoopChk, subLoop]
    rw [if_neg (by omega)]
    by_cases hlt : a < bs.headD 0 + br
    · rw [if_pos hlt, if_pos hlt, if_neg (by omega), if_neg (by omega),
        ih bs.tail 1 hat hbt (le_refl 1)]
      rfl
    · rw [if_neg hlt, if_neg hlt, ih bs.tail 0 hat hbt (by omega)]
      rfl

theorem magAddChk_eq (a b : BigInt) (ha : DigitsOk a) (hb : DigitsOk b) :
    a.magAddChk b = some (a.magAdd b) := by
  have hpad : ∀ x ∈ a.digits ++ List.replicate (max a.digits.length b.digits.length + 1 - a.digits.length) 0, x ≤ 9 := by
    intro x hx
    rcases List.mem_append.mp hx with h | h
    · exact ha x h
    · rcases List.mem_replicate.mp h with ⟨_, h0⟩
      omega
  simp only [BigInt.magAddChk, BigInt.magAdd]
  rw [addLoopChk_eq _ b.digits 0 hpad hb (by omega)]
  rfl

theorem subAbsChk_eq (a b : BigInt) (ha : DigitsOk a) (hb : DigitsOk b) :
    a.subAbsChk b = some (a.subAbs b) := by
  simp only [BigInt.subAbsChk, BigInt.subAbs]
  rw [subLoopChk_eq a.digits b.digits 0 ha hb (by omega)]
  rfl

theorem subChk_eq (a b : BigInt) (ha : DigitsOk a) (hb : DigitsOk b) :
    a.subChk b = some (a.sub b) := by
  obtain ⟨da, sa⟩ := a
  obtain ⟨db, sb⟩ := b
  cases sa <;> cases sb <;> simp only [BigInt.subChk, BigInt.sub]
  · cases hcmp : BigInt.cmpAbs ⟨da, Sign.Positive⟩ ⟨db, Sign.Positive⟩ <;>
      simp only [hcmp] <;>
      first
        | rfl
        | exact subAbsChk_eq ⟨da, Sign.Positive⟩ ⟨db, Sign.Positive⟩ ha hb
        | (rw [subAbsChk_eq ⟨db, Sign.Positive⟩ ⟨da, Sign.Positive⟩ hb ha]; rfl)
  · exact magAddChk_eq ⟨da, Sign.Positive⟩ ⟨db, Sign.Positive⟩ ha hb
  · rw [magAddChk_eq ⟨da, Sign.Negative⟩ ⟨db, Sign.Negative⟩ ha hb]
    rfl
  · cases hcmp : BigInt.cmpAbs ⟨da, Sign.Negative⟩ ⟨db, Sign.Negative⟩ <;>
      simp only [hcmp] <;>
      first
        | rfl
        | exact subAbsChk_eq ⟨db, Sign.Negative⟩ ⟨da, Sign.Negative⟩ hb ha
        | (rw [subAbsChk_eq ⟨da, Sign.Negative⟩ ⟨db, Sign.Negative⟩ ha hb]; rfl)

theorem addChk_eq (a b : BigInt) (ha : DigitsOk a) (hb : DigitsOk b) :
    a.addChk b = some (a.add b) := by
  obtain ⟨da, sa⟩ := a
  obtain ⟨db, sb⟩ := b
  cases sa <;> cases sb <;> simp only [BigInt.addChk, BigInt.add]
  · exact magAddChk_eq _ _ ha hb
  · exact subChk_eq _ _ ha hb
  · exact subChk_eq _ _ hb ha
  · exact magAddChk_eq _ _ ha hb

/-- Claim C8: on operands whose digits are all in [0, 9], add and subtract
always return a BigInt and never fail: the checked variants, which return
`none` whenever a u8 step of the source (position sum with carry, borrow
adjustment by +10, subtraction) would leave the u8 range, always return
exactly the unchecked result. -/
theorem ops_total_no_overflow (a b : BigInt) (ha : DigitsOk a) (hb : DigitsOk b) :
    a.addChk b = some (a.add b) ∧ a.subChk b = some (a.sub b) :=
  ⟨addChk_eq a b ha hb, subChk_eq a b ha hb⟩

/-- Witness for claim C8 at a = 99, b = −3. -/
theorem ops_total_no_overflow_witness :
    DigitsOk ⟨[9, 9], Sign.Positive⟩ ∧ DigitsOk ⟨[3], Sign.Negative⟩ ∧
    (BigInt.addChk ⟨[9, 9], Sign.Positive⟩ ⟨[3], Sign.Negative⟩ =
        some (BigInt.add ⟨[9, 9], Sign.Positive⟩ ⟨[3], Sign.Negative⟩) ∧
      BigInt.subChk ⟨[9, 9], Sign.Positive⟩ ⟨[3], Sign.Negative⟩ =
        some (BigInt.sub ⟨[9, 9], Sign.Positive⟩ ⟨[3], Sign.Negative⟩)) :=
  ⟨by decide, by decide,
    ops_total_no_overflow ⟨[9, 9], Sign.Positive⟩ ⟨[3], Sign.Negative⟩
      (by decide) (by decide)⟩
